import Mathlib

/-!
Verification of the detection batching/tiling/pipeline core of `surya/detection.py`.

The Python source is shallowly embedded: the greedy planning loop of
`batch_detection` becomes `planLoop`/`planBatches`, the tiler
(`get_total_splits`/`split_image`, which live outside this repository's
source tree and are modelled from the spec) becomes `countTiles`,
`tileHeights` and `tileImage`, the reassembly loop of `batch_detection`
becomes `reassembleLoop`, and the producer/consumer coordinator of
`batch_text_detection` becomes both a functional model and a small-step
transition system on `PCState`.
-/

namespace Surya.Detection

variable {α : Type}

/-- The greedy planning loop of `batch_detection` (detection.py lines 45-58).
`w i` is `splits_per_image[i]`, `budget` is `batch_size`; the state carried
through the loop is `(batches, current_batch, current_batch_size)`.
When adding image `i` would push the running size over the budget, the
running batch is flushed (if non-empty) and a fresh batch is started;
`i` is then appended and its tile count added, exactly as in the source. -/
def planLoop (w : Nat → Nat) (budget : Nat) :
    List Nat → List (List Nat) → List Nat → Nat → List (List Nat)
  | [], batches, cur, _ => if 0 < cur.length then batches ++ [cur] else batches
  | i :: rest, batches, cur, curSize =>
    if budget < curSize + w i then
      planLoop w budget rest (if 0 < cur.length then batches ++ [cur] else batches) [i] (w i)
    else
      planLoop w budget rest batches (cur ++ [i]) (curSize + w i)

/-- The batch plan of `batch_detection`: image indices `0..n-1` are walked in
order with weights `splits_per_image`, starting from an empty state. -/
def planBatches (splits : List Nat) (budget : Nat) : List (List Nat) :=
  planLoop (fun i => splits.getD i 0) budget (List.range splits.length) [] [] 0

/-- Total tile count of a batch of image indices under tile weights `w`. -/
def batchTiles (w : Nat → Nat) (b : List Nat) : Nat := (b.map w).sum

theorem planLoop_join (w : Nat → Nat) (budget : Nat) :
    ∀ (l : List Nat) (batches : List (List Nat)) (cur : List Nat) (curSize : Nat),
      (planLoop w budget l batches cur curSize).flatten = batches.flatten ++ cur ++ l := by
  intro l
  induction l with
  | nil =>
    intro batches cur curSize
    by_cases h : 0 < cur.length
    · simp [planLoop, h]
    · have : cur = [] := List.length_eq_zero.mp (Nat.eq_zero_of_not_pos h)
      simp [planLoop, h, this]
  | cons i rest ih =>
    intro batches cur curSize
    by_cases hov : budget < curSize + w i
    · by_cases hc : 0 < cur.length
      · simp [planLoop, hov, hc, ih]
      · have : cur = [] := List.length_eq_zero.mp (Nat.eq_zero_of_not_pos hc)
        simp [planLoop, hov, hc, this, ih]
    · simp [planLoop, hov, ih]

theorem planLoop_budget (w : Nat → Nat) (budget : Nat) :
    ∀ (l : List Nat) (batches : List (List Nat)) (cur : List Nat) (curSize : Nat),
      (∀ b ∈ batches, budget < batchTiles w b → b.length = 1) →
      curSize = batchTiles w cur →
      (budget < batchTiles w cur → cur.length = 1) →
      ∀ b ∈ planLoop w budget l batches cur curSize,
        budget < batchTiles w b → b.length = 1 := by
  intro l
  induction l with
  | nil =>
    intro batches cur curSize hb _ hc b hmem
    by_cases h : 0 < cur.length
    · simp only [planLoop, if_pos h, List.mem_append, List.mem_singleton] at hmem
      rcases hmem with hmem | rfl
      · exact hb b hmem
      · exact hc
    · simp only [planLoop, if_neg h] at hmem
      exact hb b hmem
  | cons i rest ih =>
    intro batches cur curSize hb hsz hc b hmem
    by_cases hov : budget < curSize + w i
    · simp only [planLoop, if_pos hov] at hmem
      refine ih _ _ _ ?_ ?_ ?_ b hmem
      · intro b' hb'
        by_cases h : 0 < cur.length
        · rw [if_pos h] at hb'
          rcases List.mem_append.mp hb' with h' | h'
          · exact hb b' h'
          · rw [List.mem_singleton.mp h']
            exact hc
        · rw [if_neg h] at hb'
          exact hb b' hb'
      · simp [batchTiles]
      · intro _
        rfl
    · simp only [planLoop, if_neg hov] at hmem
      refine ih _ _ _ hb ?_ ?_ b hmem
      · simp [batchTiles, hsz]
      · intro hgt
        exfalso
        have : batchTiles w (cur ++ [i]) = curSize + w i := by
          simp [batchTiles, hsz]
        omega

theorem planBatches_join (splits : List Nat) (budget : Nat) :
    (planBatches splits budget).flatten = List.range splits.length := by
  simpa [planBatches] using
    planLoop_join (fun i => splits.getD i 0) budget (List.range splits.length) [] [] 0

theorem planBatches_budget (splits : List Nat) (budget : Nat) :
    ∀ b ∈ planBatches splits budget,
      budget < batchTiles (fun i => splits.getD i 0) b → b.length = 1 := by
  refine planLoop_budget (fun i => splits.getD i 0) budget
    (List.range splits.length) [] [] 0 ?_ ?_ ?_
  · intro b hb
    simp at hb
  · simp [batchTiles]
  · intro h
    simp [batchTiles] at h

/-- C1: for every image tile-count sequence and positive budget, the planning
loop of `batch_detection` yields batches whose concatenation is exactly the
image indices `0..n-1` in input order (so every image appears exactly once, in
order, and never split across batches), and every batch's total tile count is
at most the budget unless the batch is a single image whose own tile count
exceeds the budget. -/
theorem batch_planner_correct (splits : List Nat) (budget : Nat) (_hpos : 0 < budget) :
    (planBatches splits budget).flatten = List.range splits.length ∧
    ∀ b ∈ planBatches splits budget,
      batchTiles (fun i => splits.getD i 0) b ≤ budget ∨
      ∃ i, b = [i] ∧ budget < splits.getD i 0 := by
  refine ⟨planBatches_join splits budget, ?_⟩
  intro b hb
  by_cases h : batchTiles (fun i => splits.getD i 0) b ≤ budget
  · exact Or.inl h
  · right
    have hlt : budget < batchTiles (fun i => splits.getD i 0) b := Nat.lt_of_not_le h
    have hlen := planBatches_budget splits budget b hb hlt
    obtain ⟨i, rfl⟩ := List.length_eq_one.mp hlen
    refine ⟨i, rfl, ?_⟩
    simpa [batchTiles] using hlt

/-- Witness for `batch_planner_correct` at `splits = [3, 3, 1, 1]`, `budget = 4`. -/
theorem batch_planner_correct_witness :
    0 < 4 ∧
    ((planBatches [3, 3, 1, 1] 4).flatten = List.range 4 ∧
     ∀ b ∈ planBatches [3, 3, 1, 1] 4,
       batchTiles (fun i => [3, 3, 1, 1].getD i 0) b ≤ 4 ∨
       ∃ i, b = [i] ∧ 4 < [3, 3, 1, 1].getD i 0) :=
  ⟨by decide, batch_planner_correct [3, 3, 1, 1] 4 (by decide)⟩

/-- C4 counterexample: with tile counts `[3,3,1,1,1,1,1,1,1,1]` and budget 4,
the planner's second batch is `[1, 2]` (image1 and image2 together, 3 + 1 = 4
tiles), not `[1]` alone as the claim states: the loop only closes a batch when
adding would strictly exceed the budget. -/
theorem plan_scenario_counterexample :
    planBatches [3, 3, 1, 1, 1, 1, 1, 1, 1, 1] 4 =
      [[0], [1, 2], [3, 4, 5, 6], [7, 8, 9]] ∧
    (planBatches [3, 3, 1, 1, 1, 1, 1, 1, 1, 1] 4).getD 1 [] ≠ [1] := by
  constructor
  · rfl
  · decide

/-- C4 (amended): with tile counts `[3,3,1,1,1,1,1,1,1,1]` and budget 4, the
planner produces exactly 4 batches — `[image0]`, `[image1, image2]` (4 tiles),
`[image3..image6]` and `[image7, image8, image9]` — every image exactly once,
in input order, and no batch over 4 tiles. -/
theorem plan_scenario_actual :
    planBatches [3, 3, 1, 1, 1, 1, 1, 1, 1, 1] 4 =
      [[0], [1, 2], [3, 4, 5, 6], [7, 8, 9]] ∧
    (planBatches [3, 3, 1, 1, 1, 1, 1, 1, 1, 1] 4).length = 4 ∧
    (planBatches [3, 3, 1, 1, 1, 1, 1, 1, 1, 1] 4).flatten = List.range 10 ∧
    ∀ b ∈ planBatches [3, 3, 1, 1, 1, 1, 1, 1, 1, 1] 4,
      batchTiles (fun i => [3, 3, 1, 1, 1, 1, 1, 1, 1, 1].getD i 0) b ≤ 4 := by
  refine ⟨rfl, rfl, by decide, ?_⟩
  decide

/-- Modelled from the spec: `get_total_splits` (from `surya.input.processing`,
not part of this repository's source tree) is, per §4.1, a pure function of
image height and window height giving the number of tiles, `ceil(H / W)`. -/
def countTiles (W H : Nat) : Nat := (H + W - 1) / W

/-- Modelled from the spec: the valid (unpadded) heights of the tiles produced
by `split_image` (§4.1): tiles cover the image top-to-bottom, every tile but
possibly the last has valid height `W`, and the last carries the remainder. -/
def tileHeights (W H : Nat) : List Nat :=
  (List.range (countTiles W H)).map fun t => min W (H - t * W)

/-- Zero-pad a tile's rows up to the window height `W` with the row `pad`. -/
def padRows (W : Nat) (pad : α) (rows : List α) : List α :=
  rows ++ List.replicate (W - rows.length) pad

/-- Modelled from the spec: `split_image` (§4.1) on an image given as its list
of pixel rows: an ordered sequence of tiles covering the image top-to-bottom
with no horizontal splitting, the last tile zero-padded to the window height. -/
def tileImage (W : Nat) (pad : α) (rows : List α) : List (List α) :=
  (List.range (countTiles W rows.length)).map fun t =>
    padRows W pad ((rows.drop (t * W)).take W)

theorem countTiles_zero (W : Nat) : countTiles W 0 = 0 := by
  rcases Nat.eq_zero_or_pos W with h | h
  · simp [countTiles, h]
  · simp only [countTiles, Nat.zero_add]
    exact Nat.div_eq_of_lt (Nat.sub_lt h Nat.one_pos)

theorem countTiles_of_le (W H : Nat) (h0 : 0 < H) (hle : H ≤ W) : countTiles W H = 1 := by
  have hW : 0 < W := Nat.lt_of_lt_of_le h0 hle
  have h1 : 1 * W ≤ H + W - 1 := by omega
  have h2 : H + W - 1 < (1 + 1) * W := by omega
  simpa [countTiles] using Nat.div_eq_of_lt_le h1 h2

theorem countTiles_of_lt (W H : Nat) (hW : 0 < W) (hlt : W < H) :
    countTiles W H = countTiles W (H - W) + 1 := by
  obtain ⟨a, rfl⟩ : ∃ a, H = a + W := ⟨H - W, by omega⟩
  have h1 : a + W + W - 1 = (a + W - 1) + W := by omega
  have h2 : a + W - W = a := by omega
  simp only [countTiles, h1, h2, Nat.add_div_right _ hW]

theorem countTiles_pos (W H : Nat) (hW : 0 < W) (h0 : 0 < H) : 0 < countTiles W H := by
  have h1 : 1 * W ≤ H + W - 1 := by omega
  exact (Nat.le_div_iff_mul_le hW).mpr h1

theorem tileHeights_zero (W : Nat) : tileHeights W 0 = [] := by
  simp [tileHeights, countTiles_zero]

theorem tileHeights_of_le (W H : Nat) (h0 : 0 < H) (hle : H ≤ W) :
    tileHeights W H = [H] := by
  simp [tileHeights, countTiles_of_le W H h0 hle, List.range_succ, Nat.min_eq_right hle]

theorem tileHeights_of_lt (W H : Nat) (hW : 0 < W) (hlt : W < H) :
    tileHeights W H = W :: tileHeights W (H - W) := by
  rw [tileHeights, countTiles_of_lt W H hW hlt, List.range_succ_eq_map, List.map_cons,
    List.map_map, tileHeights]
  congr 1
  · simp [Nat.min_eq_left hlt.le]
  · refine List.map_congr_left ?_
    intro t _
    show min W (H - (t + 1) * W) = min W (H - W - t * W)
    rw [Nat.succ_mul, Nat.sub_sub, Nat.add_comm, ← Nat.sub_sub]

theorem tileHeights_ne_nil (W H : Nat) (hW : 0 < W) (h0 : 0 < H) :
    tileHeights W H ≠ [] := by
  intro hnil
  have hlen : (tileHeights W H).length = countTiles W H := by
    simp [tileHeights]
  rw [hnil] at hlen
  simp only [List.length_nil] at hlen
  have := countTiles_pos W H hW h0
  omega

theorem tileHeights_sum (W : Nat) (hW : 0 < W) :
    ∀ H, (tileHeights W H).sum = H := by
  intro H
  induction H using Nat.strong_induction_on with
  | _ H ih =>
    rcases Nat.eq_zero_or_pos H with rfl | h0
    · simp [tileHeights_zero]
    · rcases le_or_lt H W with hle | hlt
      · simp [tileHeights_of_le W H h0 hle]
      · rw [tileHeights_of_lt W H hW hlt, List.sum_cons,
          ih (H - W) (Nat.sub_lt h0 hW)]
        omega

theorem tileHeights_getLast (W : Nat) (hW : 0 < W) :
    ∀ H, 0 < H →
      (tileHeights W H).getLast? = some (if H % W = 0 then W else H % W) := by
  intro H
  induction H using Nat.strong_induction_on with
  | _ H ih =>
    intro h0
    rcases le_or_lt H W with hle | hlt
    · rw [tileHeights_of_le W H h0 hle]
      rcases Nat.lt_or_ge H W with hlt' | hge
      · rw [Nat.mod_eq_of_lt hlt', if_neg (Nat.pos_iff_ne_zero.mp h0)]
        rfl
      · have hEq : H = W := Nat.le_antisymm hle hge
        subst hEq
        simp
    · have h0' : 0 < H - W := by omega
      have hmod : H % W = (H - W) % W := by
        conv_lhs => rw [show H = (H - W) + W by omega]
        rw [Nat.add_mod_right]
      rw [tileHeights_of_lt W H hW hlt]
      obtain ⟨b, t, hbt⟩ := List.exists_cons_of_ne_nil (tileHeights_ne_nil W (H - W) hW h0')
      rw [hbt, List.getLast?_cons_cons, ← hbt, ih (H - W) (Nat.sub_lt (by omega) hW) h0', hmod]

theorem tileImage_nil (W : Nat) (pad : α) : tileImage W pad ([] : List α) = [] := by
  simp [tileImage, countTiles_zero]

theorem tileImage_of_le (W : Nat) (pad : α) (rows : List α)
    (h0 : 0 < rows.length) (hle : rows.length ≤ W) :
    tileImage W pad rows = [rows ++ List.replicate (W - rows.length) pad] := by
  rw [tileImage, countTiles_of_le W rows.length h0 hle]
  simp [padRows, List.range_succ, List.take_of_length_le hle, Nat.min_eq_right hle]

theorem tileImage_of_lt (W : Nat) (pad : α) (rows : List α)
    (hW : 0 < W) (hlt : W < rows.length) :
    tileImage W pad rows = rows.take W :: tileImage W pad (rows.drop W) := by
  rw [tileImage, countTiles_of_lt W rows.length hW hlt, List.range_succ_eq_map, List.map_cons,
    List.map_map, tileImage, List.length_drop]
  congr 1
  · have hlen : (rows.take W).length = W := by
      simp [List.length_take, Nat.min_eq_left hlt.le]
    simp [padRows, hlen]
  · refine List.map_congr_left ?_
    intro t _
    show padRows W pad ((rows.drop ((t + 1) * W)).take W)
        = padRows W pad (((rows.drop W).drop (t * W)).take W)
    rw [List.drop_drop, Nat.succ_mul, Nat.add_comm]

/-- The reassembly loop of `batch_detection` (detection.py lines 88-103) on one
heatmap channel (the `for k in range(heatmap_count)` loop applies the identical
trim-and-vstack operation to every channel). Each item is
`(idx, height, heatmap)` from `zip(split_index, split_heights)` paired with the
tile's canonical-resolution heatmap (a list of `W` rows). A first tile for an
image is appended untrimmed; a subsequent tile is trimmed to `height` rows when
`height < W` and vstacked onto the image's accumulated heatmap. -/
def reassembleLoop (W : Nat) : List (Nat × Nat × List α) → List (List α) → List (List α)
  | [], preds => preds
  | (idx, height, hm) :: rest, preds =>
    if preds.length ≤ idx then
      reassembleLoop W rest (preds ++ [hm])
    else
      reassembleLoop W rest
        (preds.set idx (preds.getD idx [] ++ (if height < W then hm.take height else hm)))

/-- The reassembly items contributed by one image of the batch: its tiles in
top-to-bottom order, each tagged with the image's index within the batch and
its valid height, with the identity transform substituted for the model (the
model contributes a heatmap per tile; its content is opaque here, so a tile's
heatmap is its row list). Mirrors `split_index.extend([image_idx] * ...)` and
`split_heights.extend(split_height)` in the source. -/
def imageItems (W : Nat) (pad : α) (idx : Nat) (rows : List α) :
    List (Nat × Nat × List α) :=
  ((tileHeights W rows.length).zip (tileImage W pad rows)).map fun p => (idx, p.1, p.2)

/-- All reassembly items of one batch: images enumerated in batch order, as in
`for image_idx, image in enumerate(batch_images)`. -/
def batchItems (W : Nat) (pad : α) (imgs : List (List α)) :
    List (Nat × Nat × List α) :=
  (imgs.enum.map fun p => imageItems W pad p.1 p.2).flatten

/-- The per-image heatmap produced by the reassembly loop of `batch_detection`
for a single image (identity model): the image's rows when it spans at least
one full window, and its rows plus surviving padding when it is a single tile
shorter than the window (the first tile of an image is never trimmed). -/
def reassembledOne (W : Nat) (pad : α) (rows : List α) : List α :=
  if W ≤ rows.length then rows else rows ++ List.replicate (W - rows.length) pad

/-- The reassembled per-image heatmaps of one batch (`preds` at line 105). -/
def reassembleBatch (W : Nat) (pad : α) (imgs : List (List α)) : List (List α) :=
  reassembleLoop W (batchItems W pad imgs) []

theorem getD_append_last {β : Type} (ps : List β) (a d : β) :
    (ps ++ [a]).getD ps.length d = a := by
  induction ps with
  | nil => rfl
  | cons x xs ih => exact ih

theorem set_append_last {β : Type} (ps : List β) (a b : β) :
    (ps ++ [a]).set ps.length b = ps ++ [b] := by
  induction ps with
  | nil => rfl
  | cons x xs ih => simp [List.set, ih]

theorem reassembleLoop_append (W : Nat) (l1 l2 : List (Nat × Nat × List α)) :
    ∀ preds, reassembleLoop W (l1 ++ l2) preds = reassembleLoop W l2 (reassembleLoop W l1 preds) := by
  induction l1 with
  | nil => intro preds; rfl
  | cons item rest ih =>
    intro preds
    obtain ⟨idx, height, hm⟩ := item
    by_cases h : preds.length ≤ idx
    · simp only [List.cons_append, reassembleLoop, if_pos h]
      exact ih _
    · simp only [List.cons_append, reassembleLoop, if_neg h]
      exact ih _

theorem imageItems_nil (W : Nat) (pad : α) (idx : Nat) :
    imageItems W pad idx ([] : List α) = [] := by
  simp [imageItems, tileHeights_zero, tileImage_nil]

theorem imageItems_of_le (W : Nat) (pad : α) (idx : Nat) (rows : List α)
    (h0 : 0 < rows.length) (hle : rows.length ≤ W) :
    imageItems W pad idx rows =
      [(idx, rows.length, rows ++ List.replicate (W - rows.length) pad)] := by
  rw [imageItems, tileHeights_of_le W rows.length h0 hle, tileImage_of_le W pad rows h0 hle]
  rfl

theorem imageItems_of_lt (W : Nat) (pad : α) (idx : Nat) (rows : List α)
    (hW : 0 < W) (hlt : W < rows.length) :
    imageItems W pad idx rows =
      (idx, W, rows.take W) :: imageItems W pad idx (rows.drop W) := by
  rw [imageItems, tileHeights_of_lt W rows.length hW hlt, tileImage_of_lt W pad rows hW hlt,
    List.zip_cons_cons, List.map_cons, imageItems, List.length_drop]

theorem reassembleLoop_subsequent (W : Nat) (pad : α) (hW : 0 < W) :
    ∀ (H : Nat) (rows : List α) (idx : Nat) (ps : List (List α)) (acc : List α),
      rows.length = H → ps.length = idx →
      reassembleLoop W (imageItems W pad idx rows) (ps ++ [acc]) = ps ++ [acc ++ rows] := by
  intro H
  induction H using Nat.strong_induction_on with
  | _ H ih =>
    intro rows idx ps acc hrows hps
    rcases Nat.eq_zero_or_pos H with rfl | h0
    · rw [List.length_eq_zero.mp hrows, imageItems_nil]
      simp [reassembleLoop]
    · have h0' : 0 < rows.length := hrows ▸ h0
      have hlen : ¬ (ps ++ [acc]).length ≤ idx := by
        simp [hps]
      rcases le_or_lt rows.length W with hle | hlt
      · rw [imageItems_of_le W pad idx rows h0' hle]
        rw [reassembleLoop, if_neg hlen, ← hps, getD_append_last]
        rcases lt_or_eq_of_le hle with hlt' | heq
        · rw [if_pos hlt', List.take_left, set_append_last]
          rfl
        · rw [if_neg (by omega), heq, Nat.sub_self, List.replicate_zero, List.append_nil,
            set_append_last]
          rfl
      · rw [imageItems_of_lt W pad idx rows hW hlt]
        rw [reassembleLoop, if_neg hlen, ← hps, getD_append_last,
          if_neg (lt_irrefl W), set_append_last]
        have hdrop : (rows.drop W).length = H - W := by
          simp [hrows]
        rw [ih (H - W) (Nat.sub_lt h0 hW) (rows.drop W) ps.length ps (acc ++ rows.take W) hdrop rfl,
          List.append_assoc, List.take_append_drop]

theorem reassembleLoop_image (W : Nat) (pad : α) (hW : 0 < W)
    (rows : List α) (h0 : 0 < rows.length) (ps : List (List α)) :
    reassembleLoop W (imageItems W pad ps.length rows) ps
      = ps ++ [reassembledOne W pad rows] := by
  rcases le_or_lt rows.length W with hle | hlt
  · rw [imageItems_of_le W pad ps.length rows h0 hle]
    rw [reassembleLoop, if_pos (le_refl ps.length)]
    rw [reassembleLoop]
    rcases lt_or_eq_of_le hle with hlt' | heq
    · rw [reassembledOne, if_neg (by omega)]
    · rw [reassembledOne, if_pos (by omega), heq, Nat.sub_self, List.replicate_zero,
        List.append_nil]
  · rw [imageItems_of_lt W pad ps.length rows hW hlt]
    rw [reassembleLoop, if_pos (le_refl ps.length)]
    have hdrop : (rows.drop W).length = rows.length - W := by simp
    rw [reassembleLoop_subsequent W pad hW (rows.length - W) (rows.drop W) ps.length ps
      (rows.take W) hdrop rfl, List.take_append_drop, reassembledOne, if_pos hlt.le]

theorem reassembleLoop_enumFrom (W : Nat) (pad : α) (hW : 0 < W) :
    ∀ (imgs : List (List α)) (ps : List (List α)),
      (∀ r ∈ imgs, 0 < r.length) →
      reassembleLoop W
          ((List.enumFrom ps.length imgs |>.map fun p => imageItems W pad p.1 p.2).flatten) ps
        = ps ++ imgs.map (reassembledOne W pad) := by
  intro imgs
  induction imgs with
  | nil => intro ps _; simp [reassembleLoop]
  | cons img rest ih =>
    intro ps hall
    rw [List.enumFrom_cons, List.map_cons, List.flatten_cons, reassembleLoop_append,
      reassembleLoop_image W pad hW img (hall img (List.mem_cons_self img rest)) ps]
    have hlen : (ps ++ [reassembledOne W pad img]).length = ps.length + 1 := by simp
    rw [← hlen, ih (ps ++ [reassembledOne W pad img])
      (fun r hr => hall r (List.mem_cons_of_mem img hr))]
    simp

theorem reassembleBatch_eq (W : Nat) (pad : α) (imgs : List (List α)) (hW : 0 < W)
    (hall : ∀ r ∈ imgs, 0 < r.length) :
    reassembleBatch W pad imgs = imgs.map (reassembledOne W pad) := by
  have h : imgs.enum = List.enumFrom 0 imgs := rfl
  have h0 : (0 : Nat) = ([] : List (List α)).length := rfl
  rw [reassembleBatch, batchItems, h, h0,
    reassembleLoop_enumFrom W pad hW imgs [] hall, List.nil_append]

/-- C5: for every image of height `H` and window height `W > 0`, the tile
count used by the Batch Planner (`countTiles`, modelling `get_total_splits`)
is the ceiling division `H ⌈/⌉ W` (equivalently, the least `m` with
`H ≤ W * m`), and tiling the image yields exactly that many tiles whose valid
heights sum to `H`. -/
theorem tiling_count_correct (W : Nat) (pad : α) (rows : List α) (hW : 0 < W) :
    countTiles W rows.length = rows.length ⌈/⌉ W ∧
    (∀ m : Nat, countTiles W rows.length ≤ m ↔ rows.length ≤ W * m) ∧
    (tileImage W pad rows).length = countTiles W rows.length ∧
    (tileHeights W rows.length).length = countTiles W rows.length ∧
    (tileHeights W rows.length).sum = rows.length := by
  refine ⟨rfl, ?_, ?_, ?_, tileHeights_sum W hW rows.length⟩
  · intro m
    show rows.length ⌈/⌉ W ≤ m ↔ rows.length ≤ W * m
    exact ceilDiv_le_iff_le_mul hW
  · simp [tileImage]
  · simp [tileHeights]

/-- Witness for `tiling_count_correct` at `W = 2` and a five-row image. -/
theorem tiling_count_correct_witness :
    0 < 2 ∧
    (countTiles 2 ([1, 2, 3, 4, 5] : List Nat).length = ([1, 2, 3, 4, 5] : List Nat).length ⌈/⌉ 2 ∧
     (∀ m : Nat, countTiles 2 ([1, 2, 3, 4, 5] : List Nat).length ≤ m ↔
        ([1, 2, 3, 4, 5] : List Nat).length ≤ 2 * m) ∧
     (tileImage 2 (0 : Nat) [1, 2, 3, 4, 5]).length = countTiles 2 ([1, 2, 3, 4, 5] : List Nat).length ∧
     (tileHeights 2 ([1, 2, 3, 4, 5] : List Nat).length).length
        = countTiles 2 ([1, 2, 3, 4, 5] : List Nat).length ∧
     (tileHeights 2 ([1, 2, 3, 4, 5] : List Nat).length).sum = ([1, 2, 3, 4, 5] : List Nat).length) :=
  ⟨by decide, tiling_count_correct 2 0 [1, 2, 3, 4, 5] (by decide)⟩

/-- C2 counterexample: with window height 2, an image of height 1 (exactly one
row shorter than one window) yields a single tile with valid height
1 = windowHeight - 1, but the reassembly loop never trims the first tile of an
image, so the padded row (here `9`) survives in the reassembled heatmap. -/
theorem reassembly_boundary_counterexample :
    (tileHeights 2 1).getLast? = some (2 - 1) ∧
    reassembleBatch 2 (9 : Nat) [[5]] = [[5, 9]] ∧
    reassembleBatch 2 (9 : Nat) [[5]] ≠ [[5]] := by decide

/-- C2 (amended): for window height `W ≥ 2` and an image at least one window
tall whose height is one row short of a multiple of `W`, the final tile's
valid height is `W - 1`, every subsequent tile's heatmap is trimmed to its
valid height before being vstacked, and no padded row survives: reassembling
the image's tiles (identity model) returns exactly the image's rows. Only a
single-tile image (height < W) keeps its padding, since an image's first tile
is appended untrimmed. -/
theorem reassembly_trim_correct (W : Nat) (pad : α) (rows : List α)
    (hW : 1 < W) (hge : W ≤ rows.length) (hmod : rows.length % W = W - 1) :
    (tileHeights W rows.length).getLast? = some (W - 1) ∧
    reassembleBatch W pad [rows] = [rows] := by
  have hW0 : 0 < W := by omega
  have h0 : 0 < rows.length := by omega
  constructor
  · rw [tileHeights_getLast W hW0 rows.length h0, hmod, if_neg (by omega)]
  · rw [reassembleBatch_eq W pad [rows] hW0 (by
      intro r hr
      rw [List.mem_singleton.mp hr]
      exact h0)]
    simp [reassembledOne, hge]

/-- Witness for `reassembly_trim_correct` at `W = 2` and a three-row image. -/
theorem reassembly_trim_correct_witness :
    1 < 2 ∧ 2 ≤ ([10, 20, 30] : List Nat).length ∧
    ([10, 20, 30] : List Nat).length % 2 = 2 - 1 ∧
    ((tileHeights 2 ([10, 20, 30] : List Nat).length).getLast? = some (2 - 1) ∧
     reassembleBatch 2 (0 : Nat) [[10, 20, 30]] = [[10, 20, 30]]) :=
  ⟨by decide, by decide, by decide,
    reassembly_trim_correct 2 0 [10, 20, 30] (by decide) (by decide) (by decide)⟩

/-- An input image as the pipeline sees it: its original `(width, height)`
size and its pixel rows (one abstract value per row). -/
structure PImage (α : Type) where
  size : Nat × Nat
  rows : List α

/-- A Python value handed to `batch_detection`: either a PIL image or some
other object, for the `isinstance(image, Image.Image)` check at line 37. -/
inductive PyInput (α : Type)
  | image (img : PImage α)
  | other

/-- Whether an input is an image (`isinstance(image, Image.Image)`). -/
def PyInput.isImage : PyInput α → Bool
  | .image _ => true
  | .other => false

/-- Extract the image payload of an input, if any. -/
def PyInput.toImage : PyInput α → Option (PImage α)
  | .image img => some img
  | .other => none

/-- Default image used only to give list indexing a total type. -/
def dummyImage : PImage α := ⟨(0, 0), []⟩

/-- Functional model of the generator body of `batch_detection` (lines 42-105):
plan batches over `splits_per_image`, and for each batch yield the pair of the
reassembled per-image heatmaps (identity model for the network) and the
original sizes of the batch's images, in batch order. -/
def detectionBatches (W : Nat) (pad : α) (images : List (PImage α)) (budget : Nat) :
    List (List (List α) × List (Nat × Nat)) :=
  (planBatches (images.map fun im => countTiles W im.rows.length) budget).map fun b =>
    (reassembleBatch W pad (b.map fun j => (images.getD j dummyImage).rows),
     b.map fun j => (images.getD j dummyImage).size)

/-- The input-contract check of `batch_detection` (line 37): the assert on
`all(isinstance(image, Image.Image) for image in images)` runs before any
planning; a failure aborts the call with no batches planned or yielded. -/
def batch_detection_checked (W : Nat) (pad : α) (inputs : List (PyInput α)) (budget : Nat) :
    Except String (List (List (List α) × List (Nat × Nat))) :=
  if inputs.all PyInput.isImage then
    Except.ok (detectionBatches W pad (inputs.filterMap PyInput.toImage) budget)
  else
    Except.error "assert all(isinstance(image, Image.Image) for image in images)"

/-- C6: if any element of the input list is not an Image, `batch_detection`
fails with the assertion error before any batching work, yielding no batch and
no partial output; if all elements are Images, the check passes and the
pipeline proceeds on exactly those images. -/
theorem input_check_fail_fast (W : Nat) (pad : α) (inputs : List (PyInput α)) (budget : Nat) :
    ((∃ x ∈ inputs, PyInput.isImage x = false) →
      batch_detection_checked W pad inputs budget
        = Except.error "assert all(isinstance(image, Image.Image) for image in images)") ∧
    ((∀ x ∈ inputs, PyInput.isImage x = true) →
      batch_detection_checked W pad inputs budget
        = Except.ok (detectionBatches W pad (inputs.filterMap PyInput.toImage) budget)) := by
  constructor
  · intro hbad
    obtain ⟨x, hx, hfalse⟩ := hbad
    have : ¬ inputs.all PyInput.isImage = true := by
      intro hall
      have := List.all_eq_true.mp hall x hx
      rw [hfalse] at this
      exact Bool.false_ne_true this
    simp [batch_detection_checked, this]
  · intro hgood
    have hall : inputs.all PyInput.isImage = true := List.all_eq_true.mpr hgood
    simp [batch_detection_checked, hall]

/-- Witness for `input_check_fail_fast`: a list containing a non-image makes
the call fail with the assertion error. -/
theorem input_check_fail_fast_witness :
    batch_detection_checked 2 (0 : Nat) [PyInput.other] 4
      = Except.error "assert all(isinstance(image, Image.Image) for image in images)" :=
  (input_check_fail_fast 2 (0 : Nat) [PyInput.other] 4).1
    ⟨PyInput.other, List.mem_singleton_self _, rfl⟩

/-- The logits shape adaptation of `batch_detection` (lines 80-86): if the
model's native output shape (the common `[H', W']` of all per-tile heatmaps in
the stacked logits tensor) differs from `[processor height, processor width]`,
the logits are resampled to that shape (`F.interpolate(..., mode=bilinear)`,
an external torch function modelled only by its contract of returning the
requested size); otherwise they are passed through untouched. -/
def adaptLogits {T : Type} (shape : T → Nat × Nat) (resample : T → T)
    (correct : Nat × Nat) (logits : T) : T :=
  if shape logits ≠ correct then resample logits else logits

/-- C7: every per-tile heatmap yielded by the Inference Adapter has the
canonical processor resolution — under the contract that bilinear resampling
returns the requested size, the adapted logits always have the canonical
shape, and logits already of that shape are passed through unresized. -/
theorem inference_adapter_canonical {T : Type} (shape : T → Nat × Nat) (resample : T → T)
    (correct : Nat × Nat) (logits : T)
    (hres : ∀ t, shape (resample t) = correct) :
    shape (adaptLogits shape resample correct logits) = correct ∧
    (shape logits = correct → adaptLogits shape resample correct logits = logits) := by
  constructor
  · by_cases h : shape logits = correct
    · rw [adaptLogits, if_neg (by simpa using h)]
      exact h
    · rw [adaptLogits, if_pos (by simpa using h)]
      exact hres logits
  · intro h
    rw [adaptLogits, if_neg (by simpa using h)]

/-- Witness for `inference_adapter_canonical`: a concrete shape function and
resampler over `Nat × Nat` tensors. -/
theorem inference_adapter_canonical_witness :
    (∀ t : Nat × Nat, id ((fun _ : Nat × Nat => ((3 : Nat), (4 : Nat))) t) = (3, 4)) ∧
    (id (adaptLogits id (fun _ : Nat × Nat => ((3 : Nat), (4 : Nat))) (3, 4) (5, 6)) = (3, 4) ∧
     (id ((5, 6) : Nat × Nat) = (3, 4) →
       adaptLogits id (fun _ : Nat × Nat => ((3 : Nat), (4 : Nat))) (3, 4) (5, 6) = (5, 6))) :=
  ⟨fun _ => rfl,
    inference_adapter_canonical id (fun _ => (3, 4)) (3, 4) (5, 6) (fun _ => rfl)⟩

/-- The sequential branch of `postprocessing_consumer` (lines 154-165): for
each batch pulled from the queue, post-process `zip(preds, orig_sizes)` in
order in-process and extend the shared result list. -/
def consumerSequential {β : Type} (extract : List α → Nat × Nat → β)
    (stream : List (List (List α) × List (Nat × Nat))) : List β :=
  stream.foldl
    (fun results batch => results ++ ((batch.1.zip batch.2).map fun p => extract p.1 p.2)) []

/-- The parallel branch of `postprocessing_consumer` (lines 142-153): for each
batch, fan `parallel_get_lines` out through `executor.map(...)` (abstracted as
`pmap`) and extend the shared result list with the whole per-batch list. -/
def consumerParallel {β : Type} (pmap : List (List α) → List (Nat × Nat) → List β)
    (stream : List (List (List α) × List (Nat × Nat))) : List β :=
  stream.foldl (fun results batch => results ++ pmap batch.1 batch.2) []

/-- Functional model of `batch_text_detection` (lines 127-178): run the
`batch_detection` generator to its batch stream and post-process it with the
parallel or the sequential consumer branch. -/
def batch_text_detection {β : Type} (W : Nat) (pad : α)
    (extract : List α → Nat × Nat → β) (parallelize : Bool)
    (pmap : List (List α) → List (Nat × Nat) → List β)
    (images : List (PImage α)) (budget : Nat) : List β :=
  let stream := detectionBatches W pad images budget
  if parallelize then consumerParallel pmap stream else consumerSequential extract stream

theorem foldl_extend_eq {γ β : Type} (f : γ → List β) :
    ∀ (l : List γ) (acc : List β),
      l.foldl (fun r x => r ++ f x) acc = acc ++ (l.map f).flatten := by
  intro l
  induction l with
  | nil => intro acc; simp
  | cons x xs ih => intro acc; simp [ih]

theorem map_getD_range {β γ : Type} (l : List β) (d : β) (f : β → γ) :
    (List.range l.length).map (fun j => f (l.getD j d)) = l.map f := by
  induction l with
  | nil => rfl
  | cons x xs ih =>
    rw [List.length_cons, List.range_succ_eq_map, List.map_cons, List.map_map, List.map_cons]
    exact congrArg (List.cons (f x)) ih

theorem planBatches_mem_lt (splits : List Nat) (budget : Nat) :
    ∀ b ∈ planBatches splits budget, ∀ j ∈ b, j < splits.length := by
  intro b hb j hj
  have hflat : j ∈ (planBatches splits budget).flatten := List.mem_flatten.mpr ⟨b, hb, hj⟩
  rw [planBatches_join] at hflat
  exact List.mem_range.mp hflat

theorem getD_mem_of_lt {β : Type} (l : List β) (j : Nat) (d : β) (h : j < l.length) :
    l.getD j d ∈ l := by
  rw [List.getD_eq_getElem l d h]
  exact List.getElem_mem h

theorem consumerSequential_detectionBatches {β : Type} (W : Nat) (pad : α)
    (extract : List α → Nat × Nat → β) (images : List (PImage α)) (budget : Nat)
    (hW : 0 < W) (hpos : ∀ im ∈ images, 0 < im.rows.length) :
    consumerSequential extract (detectionBatches W pad images budget)
      = images.map fun im => extract (reassembledOne W pad im.rows) im.size := by
  rw [consumerSequential, foldl_extend_eq, List.nil_append, detectionBatches, List.map_map]
  have hsplits : (images.map fun im => countTiles W im.rows.length).length = images.length := by
    simp
  have hcongr : ∀ b ∈ planBatches (images.map fun im => countTiles W im.rows.length) budget,
      (((fun p => (p.1.zip p.2).map fun q => extract q.1 q.2) ∘ fun b =>
          (reassembleBatch W pad (b.map fun j => (images.getD j dummyImage).rows),
           b.map fun j => (images.getD j dummyImage).size)) b)
        = b.map fun j => extract (reassembledOne W pad (images.getD j dummyImage).rows)
            (images.getD j dummyImage).size := by
    intro b hb
    have hblt : ∀ j ∈ b, j < images.length := by
      intro j hj
      have := planBatches_mem_lt _ budget b hb j hj
      rwa [hsplits] at this
    show ((reassembleBatch W pad (b.map fun j => (images.getD j dummyImage).rows)).zip
        (b.map fun j => (images.getD j dummyImage).size)).map (fun q => extract q.1 q.2)
      = b.map fun j => extract (reassembledOne W pad (images.getD j dummyImage).rows)
          (images.getD j dummyImage).size
    rw [reassembleBatch_eq W pad _ hW (by
      intro r hr
      obtain ⟨j, hj, rfl⟩ := List.mem_map.mp hr
      have hjlt := hblt j hj
      exact hpos _ (getD_mem_of_lt images j dummyImage hjlt))]
    rw [List.map_map, List.zip_map', List.map_map]
    rfl
  rw [List.map_congr_left hcongr, ← List.map_flatten, planBatches_join, hsplits]
  exact map_getD_range images dummyImage fun im => extract (reassembledOne W pad im.rows) im.size

/-- C3: for every list of images each yielding at least one tile, the result
sequence of `batch_text_detection` is identical whether the parallel
post-processing path (process-pool fan-out, whose `executor.map` preserves
input order per the contract of spec §4.5, abstracted as `pmap`) or the
sequential in-process path is taken; it has exactly one entry per input
image, and the i-th entry is extracted from the i-th image's reassembled
heatmap and original size. -/
theorem batch_text_detection_order {β : Type} (W : Nat) (pad : α)
    (extract : List α → Nat × Nat → β)
    (pmap : List (List α) → List (Nat × Nat) → List β)
    (images : List (PImage α)) (budget : Nat)
    (hW : 0 < W) (hpos : ∀ im ∈ images, 0 < im.rows.length)
    (hpmap : ∀ preds sizes, pmap preds sizes = (preds.zip sizes).map fun p => extract p.1 p.2) :
    batch_text_detection W pad extract true pmap images budget
      = batch_text_detection W pad extract false pmap images budget ∧
    batch_text_detection W pad extract false pmap images budget
      = images.map (fun im => extract (reassembledOne W pad im.rows) im.size) ∧
    (batch_text_detection W pad extract false pmap images budget).length = images.length := by
  have hseq : batch_text_detection W pad extract false pmap images budget
      = images.map fun im => extract (reassembledOne W pad im.rows) im.size := by
    show consumerSequential extract (detectionBatches W pad images budget) = _
    exact consumerSequential_detectionBatches W pad extract images budget hW hpos
  have hfun : (fun (results : List β) (batch : List (List α) × List (Nat × Nat)) =>
        results ++ pmap batch.1 batch.2)
      = fun results batch => results ++ ((batch.1.zip batch.2).map fun p => extract p.1 p.2) := by
    funext r batch
    rw [hpmap]
  have hpar : batch_text_detection W pad extract true pmap images budget
      = batch_text_detection W pad extract false pmap images budget := by
    show consumerParallel pmap (detectionBatches W pad images budget)
      = consumerSequential extract (detectionBatches W pad images budget)
    rw [consumerParallel, consumerSequential, hfun]
  refine ⟨hpar, hseq, ?_⟩
  rw [hseq, List.length_map]

/-- Witness for `batch_text_detection_order`: two images of heights 3 and 1
with window height 2 and budget 1 (so each image forms its own batch). -/
theorem batch_text_detection_order_witness :
    0 < 2 ∧
    (batch_text_detection 2 (0 : Nat) (fun pred size => (pred, size)) true
        (fun preds sizes => (preds.zip sizes).map fun p => (p.1, p.2))
        [⟨(9, 3), [1, 2, 3]⟩, ⟨(9, 1), [4]⟩] 1
      = batch_text_detection 2 (0 : Nat) (fun pred size => (pred, size)) false
        (fun preds sizes => (preds.zip sizes).map fun p => (p.1, p.2))
        [⟨(9, 3), [1, 2, 3]⟩, ⟨(9, 1), [4]⟩] 1 ∧
     batch_text_detection 2 (0 : Nat) (fun pred size => (pred, size)) false
        (fun preds sizes => (preds.zip sizes).map fun p => (p.1, p.2))
        [⟨(9, 3), [1, 2, 3]⟩, ⟨(9, 1), [4]⟩] 1
       = ([⟨(9, 3), [1, 2, 3]⟩, ⟨(9, 1), [4]⟩] : List (PImage Nat)).map
           (fun im => (reassembledOne 2 (0 : Nat) im.rows, im.size)) ∧
     (batch_text_detection 2 (0 : Nat) (fun pred size => (pred, size)) false
        (fun preds sizes => (preds.zip sizes).map fun p => (p.1, p.2))
        [⟨(9, 3), [1, 2, 3]⟩, ⟨(9, 1), [4]⟩] 1).length
       = ([⟨(9, 3), [1, 2, 3]⟩, ⟨(9, 1), [4]⟩] : List (PImage Nat)).length) :=
  ⟨by decide,
    batch_text_detection_order 2 (0 : Nat) (fun pred size => (pred, size))
      (fun preds sizes => (preds.zip sizes).map fun p => (p.1, p.2))
      [⟨(9, 3), [1, 2, 3]⟩, ⟨(9, 1), [4]⟩] 1 (by decide) (by decide) (fun _ _ => rfl)⟩

/-- The strategy flag of `batch_text_detection` (line 133):
`parallelize = not settings.IN_STREAMLIT and len(images) >= settings.DETECTOR_MIN_PARALLEL_THRESH`. -/
def parallelizeFlag (inStreamlit : Bool) (numImages minParallelThresh : Nat) : Bool :=
  !inStreamlit && decide (minParallelThresh ≤ numImages)

/-- An observable event of the worker-process pool inside
`postprocessing_consumer`: the pool opening, one batch being dispatched
through `executor.map`, or the pool closing. -/
inductive PoolEvent (γ : Type)
  | opened
  | mapped (batch : γ)
  | closed
deriving DecidableEq

/-- The consumer's queue-draining loop (lines 144-151 and 155-162) over the
stream of batches, recording which batches are dispatched, in order, and the
per-batch results of `handle` (`executor.map` or the in-process list). -/
def consumerLoop {γ δ : Type} (handle : γ → δ) : List γ → List (PoolEvent γ) × List δ
  | [] => ([], [])
  | b :: rest =>
    let r := consumerLoop handle rest
    (PoolEvent.mapped b :: r.1, handle b :: r.2)

/-- Pool lifecycle model of `postprocessing_consumer` (lines 141-165): with
fan-out, the `with ProcessPoolExecutor(...)` block opens one pool before the
loop, the loop dispatches every batch through that same pool, and the block
closes the pool after the loop exits, before the consumer returns; without
fan-out no pool event occurs. Returns the event trace and the results. -/
def consumerRun {γ δ : Type} (parallelize : Bool) (handle : γ → δ)
    (stream : List γ) : List (PoolEvent γ) × List δ :=
  if parallelize then
    let r := consumerLoop handle stream
    (PoolEvent.opened :: (r.1 ++ [PoolEvent.closed]), r.2)
  else
    ([], (consumerLoop handle stream).2)

theorem consumerLoop_eq {γ δ : Type} (handle : γ → δ) :
    ∀ stream : List γ,
      consumerLoop handle stream = (stream.map PoolEvent.mapped, stream.map handle) := by
  intro stream
  induction stream with
  | nil => rfl
  | cons b rest ih => simp [consumerLoop, ih]

/-- C8: the consumer fans out iff the environment permits multiprocessing
(not in streamlit) and the image count meets the configured minimum parallel
threshold; with fan-out the trace is exactly one pool opening, then every
batch of the run dispatched through that single pool in stream order, then
one pool closing before the consumer returns — and without fan-out there is
no pool event. Either way the results are the in-order image results. -/
theorem consumer_parallel_strategy {γ δ : Type} (inStreamlit : Bool)
    (numImages minParallelThresh : Nat) (handle : γ → δ) (stream : List γ) :
    (parallelizeFlag inStreamlit numImages minParallelThresh = true ↔
      inStreamlit = false ∧ minParallelThresh ≤ numImages) ∧
    (consumerRun true handle stream).1
      = PoolEvent.opened :: (stream.map PoolEvent.mapped ++ [PoolEvent.closed]) ∧
    (consumerRun false handle stream).1 = [] ∧
    (consumerRun true handle stream).2 = stream.map handle ∧
    (consumerRun false handle stream).2 = stream.map handle := by
  refine ⟨?_, ?_, rfl, ?_, ?_⟩
  · constructor
    · intro h
      rcases Bool.and_eq_true _ _ |>.mp h with ⟨h1, h2⟩
      exact ⟨by simpa using h1, of_decide_eq_true h2⟩
    · intro ⟨h1, h2⟩
      rw [parallelizeFlag, h1]
      simpa using h2
  · show (PoolEvent.opened :: ((consumerLoop handle stream).1 ++ [PoolEvent.closed])) = _
    rw [consumerLoop_eq]
  · show (consumerLoop handle stream).2 = _
    rw [consumerLoop_eq]
  · show (consumerLoop handle stream).2 = _
    rw [consumerLoop_eq]

/-- State of the producer/consumer pipeline of `batch_text_detection`
(lines 134-178): the batches the producer has not yet enqueued, whether the
sentinel `None` has been put, the FIFO contents of the bounded
`Queue(maxsize=4)` (`none` models the sentinel), the batches the consumer has
pulled and processed in order, and whether the consumer has exited its loop. -/
structure PCState (γ : Type) where
  toProduce : List γ
  sentinelSent : Bool
  queue : List (Option γ)
  consumed : List γ
  consumerDone : Bool

/-- Initial pipeline state: nothing enqueued, nothing consumed. -/
def pcInit {γ : Type} (batches : List γ) : PCState γ :=
  ⟨batches, false, [], [], false⟩

/-- One interleaving step of the pipeline. `put` and `sentinel` model
`batch_queue.put` (lines 138-139), enabled only while the queue holds fewer
than 4 items (the producer blocks on a full queue); `get` and `stop` model
`batch_queue.get` (lines 145-147, 156-158), enabled only on a non-empty queue
(the consumer blocks on an empty one); the sentinel is put exactly once, after
the last batch, and the consumer exits its loop on it. -/
inductive pcStep {γ : Type} : PCState γ → PCState γ → Prop
  | put (s : PCState γ) (b : γ) (rest : List γ) :
      s.toProduce = b :: rest → s.queue.length < 4 →
      pcStep s ⟨rest, s.sentinelSent, s.queue ++ [some b], s.consumed, s.consumerDone⟩
  | sentinel (s : PCState γ) :
      s.toProduce = [] → s.sentinelSent = false → s.queue.length < 4 →
      pcStep s ⟨[], true, s.queue ++ [none], s.consumed, s.consumerDone⟩
  | get (s : PCState γ) (b : γ) (q : List (Option γ)) :
      s.queue = some b :: q → s.consumerDone = false →
      pcStep s ⟨s.toProduce, s.sentinelSent, q, s.consumed ++ [b], false⟩
  | stop (s : PCState γ) (q : List (Option γ)) :
      s.queue = none :: q → s.consumerDone = false →
      pcStep s ⟨s.toProduce, s.sentinelSent, q, s.consumed, true⟩

/-- Inductive invariant of the pipeline: bounded queue, conservation of the
batch stream in order, all-payload queue before the sentinel, producer idle
after the sentinel, and the sentinel always last in the queue until the
consumer pops it and stops. -/
def pcInv {γ : Type} (batches : List γ) (s : PCState γ) : Prop :=
  s.queue.length ≤ 4 ∧
  s.consumed ++ s.queue.filterMap id ++ s.toProduce = batches ∧
  (s.sentinelSent = false → ∃ q : List γ, s.queue = q.map some) ∧
  (s.sentinelSent = true → s.toProduce = []) ∧
  (s.consumerDone = true → s.sentinelSent = true) ∧
  (s.sentinelSent = true → s.consumerDone = false → ∃ q : List γ, s.queue = q.map some ++ [none]) ∧
  (s.consumerDone = true → s.queue = [])

theorem pcInv_init {γ : Type} (batches : List γ) : pcInv batches (pcInit batches) := by
  refine ⟨by simp [pcInit], by simp [pcInit], fun _ => ⟨[], rfl⟩, ?_, ?_, ?_, ?_⟩ <;>
    intro h <;> simp [pcInit] at h

theorem pcInv_step {γ : Type} (batches : List γ) (s s' : PCState γ)
    (hinv : pcInv batches s) (hstep : pcStep s s') : pcInv batches s' := by
  obtain ⟨h4, hcontent, hns, hsp, hds, hsq, hdq⟩ := hinv
  cases hstep with
  | put b rest hprod hlen =>
    have hsent : s.sentinelSent = false := by
      cases hb : s.sentinelSent
      · rfl
      · rw [hsp hb] at hprod
        exact absurd hprod (by simp)
    have hdone : s.consumerDone = false := by
      cases hb : s.consumerDone
      · rfl
      · rw [hds hb] at hsent
        exact absurd hsent (by simp)
    refine ⟨by simp; omega, ?_, ?_, ?_, ?_, ?_, ?_⟩
    · show s.consumed ++ (s.queue ++ [some b]).filterMap id ++ rest = batches
      rw [hprod] at hcontent
      simpa [List.filterMap_append] using hcontent
    · intro _
      obtain ⟨q, hq⟩ := hns hsent
      exact ⟨q ++ [b], by simp [hq]⟩
    · intro h
      rw [hsent] at h
      exact absurd h (by simp)
    · intro h
      rw [hdone] at h
      exact absurd h (by simp)
    · intro h _
      rw [hsent] at h
      exact absurd h (by simp)
    · intro h
      rw [hdone] at h
      exact absurd h (by simp)
  | sentinel hprod hnotsent hlen =>
    have hdone : s.consumerDone = false := by
      cases hb : s.consumerDone
      · rfl
      · rw [hds hb] at hnotsent
        exact absurd hnotsent (by simp)
    refine ⟨by simp; omega, ?_, ?_, fun _ => rfl, fun _ => rfl, ?_, ?_⟩
    · show s.consumed ++ (s.queue ++ [none]).filterMap id ++ [] = batches
      rw [hprod] at hcontent
      simpa [List.filterMap_append] using hcontent
    · intro h
      exact absurd h (by simp)
    · intro _ _
      obtain ⟨q, hq⟩ := hns hnotsent
      exact ⟨q, by simp [hq]⟩
    · intro h
      rw [hdone] at h
      exact absurd h (by simp)
  | get b q hq hnotdone =>
    refine ⟨?_, ?_, ?_, hsp, ?_, ?_, ?_⟩
    · have : s.queue.length = q.length + 1 := by rw [hq]; rfl
      simp only []
      omega
    · show (s.consumed ++ [b]) ++ q.filterMap id ++ s.toProduce = batches
      rw [hq] at hcontent
      simpa [List.append_assoc] using hcontent
    · intro h
      obtain ⟨qs, hqs⟩ := hns h
      rw [hq] at hqs
      cases qs with
      | nil => exact absurd hqs (by simp)
      | cons c cs =>
        simp only [List.map_cons, List.cons.injEq, Option.some.injEq] at hqs
        exact ⟨cs, hqs.2⟩
    · intro h
      exact absurd h (by simp)
    · intro h _
      obtain ⟨qs, hqs⟩ := hsq h hnotdone
      rw [hq] at hqs
      cases qs with
      | nil => exact absurd hqs (by simp)
      | cons c cs =>
        simp only [List.map_cons, List.cons_append, List.cons.injEq, Option.some.injEq] at hqs
        exact ⟨cs, hqs.2⟩
    · intro h
      exact absurd h (by simp)
  | stop q hq hnotdone =>
    have hsent : s.sentinelSent = true := by
      cases hb : s.sentinelSent
      · obtain ⟨qs, hqs⟩ := hns hb
        rw [hq] at hqs
        cases qs with
        | nil => exact absurd hqs (by simp)
        | cons c cs => exact absurd hqs (by simp)
      · rfl
    have hqnil : q = [] := by
      obtain ⟨qs, hqs⟩ := hsq hsent hnotdone
      rw [hq] at hqs
      cases qs with
      | nil =>
        simpa using hqs
      | cons c cs =>
        exact absurd hqs (by simp)
    refine ⟨?_, ?_, ?_, fun _ => hsp hsent, fun _ => hsent, ?_, fun _ => hqnil⟩
    · have : s.queue.length = q.length + 1 := by rw [hq]; rfl
      simp only []
      omega
    · show s.consumed ++ q.filterMap id ++ s.toProduce = batches
      rw [hq] at hcontent
      simpa using hcontent
    · intro h
      rw [hsent] at h
      exact absurd h (by simp)
    · intro _ h
      exact absurd h (by simp)

theorem pcInv_reachable {γ : Type} (batches : List γ) (s : PCState γ)
    (h : Relation.ReflTransGen pcStep (pcInit batches) s) : pcInv batches s := by
  induction h with
  | refl => exact pcInv_init batches
  | tail hsteps hstep ih => exact pcInv_step batches _ _ ih hstep

theorem countP_isNone_map_some {γ : Type} (q : List γ) :
    ((q.map fun x => some x).countP fun o => o.isNone) = 0 := by
  induction q with
  | nil => rfl
  | cons x xs ih => simp [List.countP_cons, ih]

theorem pc_terminal {γ : Type} (batches : List γ) (s : PCState γ)
    (hinv : pcInv batches s) (hstuck : ∀ s', ¬ pcStep s s') :
    s.consumerDone = true ∧ s.sentinelSent = true ∧ s.queue = [] ∧ s.consumed = batches := by
  obtain ⟨h4, hcontent, hns, hsp, hds, hsq, hdq⟩ := hinv
  have hdone : s.consumerDone = true := by
    cases hd : s.consumerDone
    · exfalso
      cases hqcase : s.queue with
      | cons o q =>
        cases o with
        | some b => exact hstuck _ (pcStep.get s b q hqcase hd)
        | none => exact hstuck _ (pcStep.stop s q hqcase hd)
      | nil =>
        cases hp : s.toProduce with
        | cons b rest => exact hstuck _ (pcStep.put s b rest hp (by rw [hqcase]; simp))
        | nil =>
          cases hs : s.sentinelSent with
          | false => exact hstuck _ (pcStep.sentinel s hp hs (by rw [hqcase]; simp))
          | true =>
            obtain ⟨qs, hqs⟩ := hsq hs hd
            rw [hqcase] at hqs
            cases qs <;> simp at hqs
    · rfl
  have hsent : s.sentinelSent = true := hds hdone
  have hqnil : s.queue = [] := hdq hdone
  have hp : s.toProduce = [] := hsp hsent
  refine ⟨hdone, hsent, hqnil, ?_⟩
  rw [hqnil, hp] at hcontent
  simpa using hcontent

/-- C9: the producer and consumer of `batch_text_detection` communicate only
through the bounded queue of capacity 4 — in every reachable interleaving the
queue holds at most 4 items (enqueueing is enabled only below capacity: the
producer blocks when full; dequeueing only on a non-empty queue: the consumer
blocks when empty), at most one sentinel is ever in flight and only after the
producer's last batch; and every reachable state with no enabled step (both
tasks finished, as after the joins) has the consumer stopped on the sentinel
with the accumulated result stream equal to all produced batches in order. -/
theorem pipeline_queue_correct {γ : Type} (batches : List γ) :
    (∀ s : PCState γ, Relation.ReflTransGen pcStep (pcInit batches) s →
        s.queue.length ≤ 4 ∧
        (s.sentinelSent = true → s.toProduce = []) ∧
        (s.queue.countP fun o => o.isNone) ≤ 1) ∧
    (∀ s : PCState γ, Relation.ReflTransGen pcStep (pcInit batches) s →
        (∀ s', ¬ pcStep s s') →
        s.consumerDone = true ∧ s.sentinelSent = true ∧ s.queue = [] ∧
        s.consumed = batches) := by
  constructor
  · intro s hreach
    obtain ⟨h4, hcontent, hns, hsp, hds, hsq, hdq⟩ := pcInv_reachable batches s hreach
    refine ⟨h4, hsp, ?_⟩
    cases hs : s.sentinelSent with
    | false =>
      obtain ⟨q, hq⟩ := hns hs
      rw [hq]
      rw [show q.map some = q.map fun x => some x from rfl, countP_isNone_map_some]
      omega
    | true =>
      cases hd : s.consumerDone with
      | false =>
        obtain ⟨q, hq⟩ := hsq hs hd
        rw [hq, List.countP_append,
          show q.map some = q.map fun x => some x from rfl, countP_isNone_map_some]
        simp [List.countP_cons]
      | true =>
        rw [hdq hd]
        simp
  · intro s hreach hstuck
    exact pc_terminal batches s (pcInv_reachable batches s hreach) hstuck

/-- Witness for `pipeline_queue_correct`: the initial state with one batch is
reachable (reflexively) and satisfies the queue bounds. -/
theorem pipeline_queue_correct_witness :
    (pcInit [7] : PCState Nat).queue.length ≤ 4 ∧
    ((pcInit [7] : PCState Nat).sentinelSent = true → (pcInit [7] : PCState Nat).toProduce = []) ∧
    (((pcInit [7] : PCState Nat).queue.countP fun o => o.isNone) ≤ 1) :=
  (pipeline_queue_correct [7]).1 (pcInit [7]) Relation.ReflTransGen.refl

/-- C10: for the empty input list, batch planning produces zero batches, the
`batch_detection` generator yields nothing (no model call, since there is no
batch to run), `batch_text_detection` returns the empty result list on both
consumer paths (no Geometry Extractor call, since there is no batch to
post-process), and the producer/consumer pipeline terminates via the sentinel
alone: the run put-sentinel-then-stop reaches the final state — consumer done,
nothing consumed — and that state has no further step. -/
theorem empty_input_empty_result {β : Type} (W : Nat) (pad : α)
    (extract : List α → Nat × Nat → β)
    (pmap : List (List α) → List (Nat × Nat) → List β) (budget : Nat) :
    planBatches ([] : List Nat) budget = [] ∧
    detectionBatches W pad ([] : List (PImage α)) budget = [] ∧
    (∀ par : Bool, batch_text_detection W pad extract par pmap [] budget = []) ∧
    Relation.ReflTransGen (@pcStep (List (List α) × List (Nat × Nat)))
      (pcInit []) ⟨[], true, [], [], true⟩ ∧
    ∀ s', ¬ pcStep (⟨[], true, [], [], true⟩ :
      PCState (List (List α) × List (Nat × Nat))) s' := by
  refine ⟨rfl, rfl, ?_, ?_, ?_⟩
  · intro par
    cases par <;> rfl
  · refine Relation.ReflTransGen.tail (Relation.ReflTransGen.tail Relation.ReflTransGen.refl
      (pcStep.sentinel (pcInit []) rfl rfl (by simp [pcInit]))) ?_
    exact pcStep.stop ⟨[], true, [none], [], false⟩ [] rfl rfl
  · intro s' h
    cases h <;> simp_all

end Surya.Detection
